import Mathlib

/-!
Verification development for the materialized-view row-storage layer
(`MViewTable` / `MViewTableIter` in `stream/src/executor/mview/table.rs`)
and the `percentile_disc` aggregator (`expr/src/agg/percentile_disc.rs`)
of the RisingWave repository.

Bytes are modelled as `List Nat` (each entry a byte value). Machine
integers are modelled as `Int`/`Nat` with explicit range conditions.
Fallible operations return an explicit outcome type distinguishing
`Ok` results, returned errors, and panics (assertion failures or
out-of-bounds indexing).
-/

/-! # Definitions -/

/-- A byte string: the model of `Vec<u8>` / `Bytes`. -/
abbrev Bytes := List Nat

/-- The scalar kinds exercised by this layer (`Int32Type`, `StringType`).
UTF-8 payloads are modelled as their byte sequences. -/
inductive ScalarValue where
  | int32 (v : Int)
  | utf8 (s : List Nat)
  deriving DecidableEq, Repr

/-- `Datum = Option<ScalarImpl>`: a nullable scalar value. -/
abbrev Datum := Option ScalarValue

/-- A row: ordered sequence of datums (`risingwave_common::array::Row`). -/
abbrev Row := List Datum

/-- The declared data type of one schema field (`DataTypeKind`). -/
inductive DataTypeKind where
  | int32Kind
  | varcharKind
  deriving DecidableEq, Repr

/-- A schema, reduced to its ordered field data types. -/
abbrev Schema := List DataTypeKind

/-- Sort direction of one primary-key column (`OrderType`). -/
inductive OrderType where
  | Ascending
  | Descending
  deriving DecidableEq, Repr

/-- Errors returned by this layer (`ErrorCode`); the code only constructs
`InternalError` with a message, plus deserialization failures. -/
inductive RwError where
  | internalError (msg : String)
  | deserializeError
  deriving DecidableEq, Repr

/-- Outcome of running a fallible operation: `Ok`, a returned `Err`, or a
panic (failed `debug_assert!` / out-of-bounds index). -/
inductive RunResult (α : Type) where
  | ok (a : α)
  | err (e : RwError)
  | panic (msg : String)
  deriving DecidableEq, Repr

/-- Whether an outcome is a returned error (`Err(_)`), as opposed to `Ok`
or a panic. -/
def RunResult.isErr {α : Type} : RunResult α → Bool
  | .err _ => true
  | _ => false

/-- Big-endian 4-byte encoding of a 32-bit unsigned integer.
Modelled from the spec: `serialize_cell_idx` / `big_endian_u32(column_index)`
(`risingwave_stream::executor::mview` helper, not under `src/`). -/
def be4 (n : Nat) : Bytes :=
  [n / 2 ^ 24 % 256, n / 2 ^ 16 % 256, n / 2 ^ 8 % 256, n % 256]

/-- Decode a big-endian 4-byte sequence. -/
def decode4 (b0 b1 b2 b3 : Nat) : Nat :=
  b0 * 2 ^ 24 + b1 * 2 ^ 16 + b2 * 2 ^ 8 + b3

/-- Escaped byte-sequence encoding used for `utf8` payloads: each content
byte is tagged with `1`, and `0` terminates the sequence (order-preserving
and prefix-free). Modelled from the spec: the Cell Codec's order-preserving
bytes encoding (`memcomparable` serializer, not under `src/`). -/
def encBytes (s : List Nat) : Bytes :=
  s.flatMap (fun b => [1, b]) ++ [0]

/-- Inverse of `encBytes`: reads tagged bytes until the `0` terminator,
returning the payload and the unconsumed rest. -/
def decBytes : List Nat → Option (List Nat × List Nat)
  | 0 :: rest => some ([], rest)
  | 1 :: b :: rest =>
      (decBytes rest).map (fun p => (b :: p.1, p.2))
  | _ => none

/-- `encode_cell`: serialize one datum. A null is the single byte `0`; a
present value is tagged `1` followed by the order-preserving encoding of
the scalar (`int32` shifted by `2^31` then big-endian; `utf8` escaped).
Modelled from the spec: the Cell Codec
(`memcomparable::Serializer` + `serialize_datum_into`, not under `src/`). -/
def serializeDatum : Datum → Bytes
  | none => [0]
  | some (.int32 v) => 1 :: be4 (v + 2 ^ 31).toNat
  | some (.utf8 s) => 1 :: encBytes s

/-- `decode_cell` / `deserialize_datum_from`: type-directed deserialization
of one datum from the front of a buffer, returning the datum and the
unconsumed rest. Modelled from the spec: the Cell Codec
(`risingwave_common::types::deserialize_datum_from`, not under `src/`). -/
def deserializeDatum : DataTypeKind → Bytes → Option (Datum × Bytes)
  | _, 0 :: rest => some (none, rest)
  | .int32Kind, 1 :: b0 :: b1 :: b2 :: b3 :: rest =>
      some (some (.int32 ((decode4 b0 b1 b2 b3 : Int) - 2 ^ 31)), rest)
  | .varcharKind, 1 :: rest =>
      (decBytes rest).map (fun p => (some (.utf8 p.1), p.2))
  | _, _ => none

/-- A datum is representable at a declared type: nulls always are; an
`int32` value must lie in the 32-bit signed range; any byte payload is a
representable `utf8` value. -/
def wellTyped : DataTypeKind → Datum → Prop
  | _, none => True
  | .int32Kind, some (.int32 v) => -(2 ^ 31) ≤ v ∧ v < 2 ^ 31
  | .varcharKind, some (.utf8 _) => True
  | _, some _ => False

instance (t : DataTypeKind) (d : Datum) : Decidable (wellTyped t d) := by
  cases t <;> rcases d with _ | v <;> first
    | exact isTrue trivial
    | cases v <;> simp only [wellTyped] <;> infer_instance

/-- A row is well typed against a schema, pointwise and of equal length. -/
def wellTypedRow : Schema → Row → Prop
  | [], [] => True
  | t :: ts, d :: ds => wellTyped t d ∧ wellTypedRow ts ds
  | _, _ => False

instance instDecWellTypedRow : (s : Schema) → (r : Row) →
    Decidable (wellTypedRow s r)
  | [], [] => .isTrue trivial
  | [], _ :: _ => .isFalse (fun h => h)
  | _ :: _, [] => .isFalse (fun h => h)
  | _ :: ts, _ :: ds =>
      @instDecidableAnd _ _ _ (instDecWellTypedRow ts ds)

/-- Invert every byte (`255 - b`), used for descending-order pk columns.
Modelled from the spec: the order-reversing step of `OrderedRowsSerializer`
(not under `src/`). -/
def invertBytes (b : Bytes) : Bytes :=
  b.map (fun x => 255 - x)

/-- One pk column's contribution to the encoded key: the serialized datum,
byte-inverted for a descending column. -/
def serializePkCol (o : OrderType) (d : Datum) : Bytes :=
  match o with
  | .Ascending => serializeDatum d
  | .Descending => invertBytes (serializeDatum d)

/-- `serialize_pk(pk, sort_key_serializer)`: concatenation of per-column
order-directed encodings of the pk row. Modelled from the spec:
`encode_pk(pk_row, orderings)` via `OrderedRowsSerializer`
(not under `src/`). -/
def serialize_pk (pk : Row) (orderings : List OrderType) : Bytes :=
  (List.zipWith serializePkCol orderings pk).flatten

/-- The full cell key:
`keyspace_prefix ++ encode_pk(pk) ++ big_endian_u32(column_index)`. -/
def cellKey (pfx : Bytes) (orderings : List OrderType) (pk : Row)
    (cell_idx : Nat) : Bytes :=
  pfx ++ serialize_pk pk orderings ++ be4 cell_idx

/-! ## The underlying ordered key-value store -/

/-- The state store: an association list of key-value byte strings.
Modelled from the spec: the consumed Keyspace abstraction over
`MemoryStateStore` (a `BTreeMap`, not under `src/`); uniqueness of keys is
maintained by the write operations, and scans sort by key. -/
abbrev Store := List (Bytes × Bytes)

/-- One write of a batch: `Put(key, value)` or `Delete(key)`. -/
inductive WriteOp where
  | put (key : Bytes) (value : Bytes)
  | del (key : Bytes)
  deriving DecidableEq, Repr

/-- The key a write op touches. -/
def WriteOp.key : WriteOp → Bytes
  | .put k _ => k
  | .del k => k

/-- Remove every entry with the given key. -/
def storeDelete : Store → Bytes → Store
  | [], _ => []
  | e :: rest, k =>
      if e.1 = k then storeDelete rest k
      else e :: storeDelete rest k

/-- Insert-or-replace one key. -/
def storePut (st : Store) (k v : Bytes) : Store :=
  storeDelete st k ++ [(k, v)]

/-- Point read (`Keyspace::get`): the value of the first entry with the
given key. -/
def storeGet : Store → Bytes → Option Bytes
  | [], _ => none
  | e :: rest, k => if e.1 = k then some e.2 else storeGet rest k

/-- Apply one write. -/
def applyOp (st : Store) : WriteOp → Store
  | .put k v => storePut st k v
  | .del k => storeDelete st k

/-- Atomically apply a batch of writes (`ingest_batch`); the epoch tag does
not affect the resulting visible state. Modelled from the spec:
`batch_write(ops, epoch)`, atomic. -/
def applyBatch (st : Store) (ops : List WriteOp) : Store :=
  ops.foldl applyOp st

/-- The net effect of a batch on one key: `none` if no op touches the key,
else `some (some v)` / `some none` according to the last matching op. -/
def batchEffect : List WriteOp → Bytes → Option (Option Bytes)
  | [], _ => none
  | op :: rest, k =>
      match batchEffect rest k with
      | some r => some r
      | none =>
          match op with
          | .put k2 v => if k2 = k then some (some v) else none
          | .del k2 => if k2 = k then some none else none

/-- Lexicographic byte-string comparison used by the ordered store. -/
def lexLe : Bytes → Bytes → Bool
  | [], _ => true
  | _ :: _, [] => false
  | a :: as, b :: bs => if a = b then lexLe as bs else a < b

/-- Insert an entry into a key-sorted entry list, keeping it sorted. -/
def insertSorted (e : Bytes × Bytes) :
    List (Bytes × Bytes) → List (Bytes × Bytes)
  | [] => [e]
  | f :: rest =>
      if lexLe e.1 f.1 then e :: f :: rest else f :: insertSorted e rest

/-- Sort an entry list by key (insertion sort). -/
def sortByKey (l : List (Bytes × Bytes)) : List (Bytes × Bytes) :=
  l.foldr insertSorted []

/-- Ordered scan of all entries under a key prefix (`Keyspace::iter`):
the matching entries in ascending byte order of key. Modelled from the
spec: `scan(prefix) -> ordered iterator of (key, value)`. -/
def storeScan (st : Store) (pfx : Bytes) : List (Bytes × Bytes) :=
  sortByKey (st.filter (fun e => pfx.isPrefixOf e.1))

/-! ## `MViewTable` (read path, from `table.rs`) -/

/-- The immutable configuration of an `MViewTable`: keyspace prefix,
schema, pk columns and per-column orderings (`MViewTable::new`). -/
structure MViewTable where
  pfx : Bytes
  schema : Schema
  pk_columns : List Nat
  orderings : List OrderType
  deriving Repr

/-- `MViewTable::get(pk, cell_idx)`, with debug assertions active: a
`debug_assert!` guards `cell_idx < schema.len()` (a panic, not a returned
error); then a single point read at the cell key; absence is `Ok(None)`;
presence is decoded by the column's declared type (the guard puts the
schema field lookup in bounds; decode failure propagates as an error). -/
def MViewTable.get (t : MViewTable) (st : Store) (pk : Row)
    (cell_idx : Nat) : RunResult (Option Datum) :=
  if cell_idx < t.schema.length then
    match storeGet st (cellKey t.pfx t.orderings pk cell_idx) with
    | some buf =>
        match deserializeDatum (t.schema.getD cell_idx .int32Kind) buf with
        | some p => .ok (some p.1)
        | none => .err .deserializeError
    | none => .ok none
  else
    .panic "assertion failed: cell_idx < self.schema.len()"

/-! ## `MViewTableIter` (scan, from `table.rs`) -/

/-- `RowDeserializer::deserialize(row_bytes)`: decode one datum per schema
field, sequentially from the concatenated buffer. Modelled from the spec:
decode the accumulated buffer column-by-column per schema field types
(`RowDeserializer`, not under `src/`). -/
def rowDeserialize (schema : Schema) (bytes : Bytes) : Option Row :=
  match schema with
  | [] => some []
  | t :: ts =>
      match deserializeDatum t bytes with
      | some (d, rest) => (rowDeserialize ts rest).map (fun r => d :: r)
      | none => none

/-- The loop body of `MViewTableIter::next`, with the loop state
(`pk_buf`, `restored`, `row_bytes`) explicit and the underlying iterator
represented by its remaining entries. Returns the yielded row (or `none`
at end-of-sequence) together with the entries left unconsumed. -/
def iterNextLoop (schema : Schema) (pfx : Bytes) :
    List (Bytes × Bytes) → Bytes → Nat → Bytes →
    RunResult (Option Row × List (Bytes × Bytes))
  | [], _, restored, _ =>
      if restored = 0 then .ok (none, [])
      else .err (.internalError "incomplete item")
  | (key, value) :: rest, pk_buf, restored, row_bytes =>
      if key.length < pfx.length + 4 then
        .err (.internalError "corrupted key")
      else
        let cur_pk_buf := (key.drop pfx.length).take (key.length - 4 - pfx.length)
        if restored ≠ 0 ∧ pk_buf ≠ cur_pk_buf then
          .err (.internalError "incomplete item")
        else
          let pk_buf := if restored = 0 then cur_pk_buf else pk_buf
          let row_bytes := row_bytes ++ value
          let restored := restored + 1
          if restored = schema.length then
            match rowDeserialize schema row_bytes with
            | some row => .ok (some row, rest)
            | none => .err .deserializeError
          else
            iterNextLoop schema pfx rest pk_buf restored row_bytes

/-- `MViewTableIter::next()`: one pull of the scan cursor, starting a new
pk group (`pk_buf = []`, `restored = 0`, empty `row_bytes`). -/
def iterNext (schema : Schema) (pfx : Bytes)
    (entries : List (Bytes × Bytes)) :
    RunResult (Option Row × List (Bytes × Bytes)) :=
  iterNextLoop schema pfx entries [] 0 []

/-- `MViewTable::iter()`: the entries the fresh cursor will consume — an
ordered scan of the table's keyspace prefix. -/
def MViewTable.iterEntries (t : MViewTable) (st : Store) :
    List (Bytes × Bytes) :=
  storeScan st t.pfx

/-! ## `ManagedMViewState` (write path) -/

/-- Insert-or-replace in an association list, replacing the first matching
key in place (the model of `HashMap::insert`). -/
def upsert : List (Row × Option Row) → Row → Option Row →
    List (Row × Option Row)
  | [], pk, v => [(pk, v)]
  | e :: rest, pk, v =>
      if e.1 = pk then (pk, v) :: rest
      else e :: upsert rest pk v

/-- The write-buffering managed state. Modelled from the spec:
`ManagedMViewState` (not under `src/`) — an in-memory buffer mapping
primary key to the pending mutation, `some row` for `Put(row)` and `none`
for `Delete`, last-write-wins. -/
structure ManagedMViewState where
  pfx : Bytes
  schema : Schema
  pk_columns : List Nat
  orderings : List OrderType
  memtable : List (Row × Option Row)
  deriving Repr

/-- A fresh managed state with an empty buffer (`ManagedMViewState::new`). -/
def ManagedMViewState.new (pfx : Bytes) (schema : Schema)
    (pk_columns : List Nat) (orderings : List OrderType) :
    ManagedMViewState :=
  ⟨pfx, schema, pk_columns, orderings, []⟩

/-- `put(pk, row)`: buffer an upsert; no I/O. -/
def ManagedMViewState.put (s : ManagedMViewState) (pk value : Row) :
    ManagedMViewState :=
  { s with memtable := upsert s.memtable pk (some value) }

/-- `delete(pk)`: buffer a deletion; no I/O. -/
def ManagedMViewState.delete (s : ManagedMViewState) (pk : Row) :
    ManagedMViewState :=
  { s with memtable := upsert s.memtable pk none }

/-- The batch a flush emits: per buffered `Put`, one cell write per schema
column; per buffered `Delete`, one cell deletion per column. Modelled from
the spec: `flush(epoch)` emits `len(schema)` writes or deletions per
buffered pk. -/
def ManagedMViewState.flushOps (s : ManagedMViewState) : List WriteOp :=
  s.memtable.flatMap (fun e =>
    (List.range s.schema.length).map (fun i =>
      match e.2 with
      | some row =>
          .put (cellKey s.pfx s.orderings e.1 i)
            (serializeDatum (row.getD i none))
      | none => .del (cellKey s.pfx s.orderings e.1 i)))

/-- `flush(epoch)`: apply the batch atomically to the store (the epoch
tags the batch but does not change the resulting visible state) and clear
the buffer. Returns the new store and the cleared state. -/
def ManagedMViewState.flush (s : ManagedMViewState) (st : Store)
    (_epoch : Nat) : Store × ManagedMViewState :=
  (applyBatch st s.flushOps, { s with memtable := [] })

/-! ## `percentile_disc` aggregator (`percentile_disc.rs`) -/

/-- Saturating cast of `f64::ceil(x) as usize`: `Int.ceil`, clamped to `0`
from below (a negative float cast to `usize` saturates at `0`). The `f64`
fraction is modelled as a rational. -/
def ceilToUsize (q : ℚ) : Nat :=
  (⌈q⌉ : Int).toNat

/-- The state of the `percentile_disc` aggregator: the constant fraction
argument (`None` when the SQL argument is `NULL`), the return type, and
the accumulated non-null input values (`PercentileDisc`). -/
structure PercentileDisc where
  fractions : Option ℚ
  return_type : DataTypeKind
  data : List ScalarValue
  deriving DecidableEq, Repr

/-- `PercentileDisc::new`. -/
def PercentileDisc.new (fractions : Option ℚ) (return_type : DataTypeKind) :
    PercentileDisc :=
  ⟨fractions, return_type, []⟩

/-- `PercentileDisc::add_datum`: push the value if the datum is non-null,
otherwise do nothing. -/
def PercentileDisc.add_datum (pd : PercentileDisc) (d : Datum) :
    PercentileDisc :=
  match d with
  | some v => { pd with data := pd.data ++ [v] }
  | none => pd

/-- `Aggregator::update`: feed the first-column datum of every row of the
input chunk (the chunk is modelled as that list of datums). -/
def PercentileDisc.update (pd : PercentileDisc) (input : List Datum) :
    PercentileDisc :=
  input.foldl PercentileDisc.add_datum pd

/-- `Aggregator::update_range`: feed only the rows of the chunk whose
positions lie in `[start, stop)`. -/
def PercentileDisc.update_range (pd : PercentileDisc) (input : List Datum)
    (start stop : Nat) : PercentileDisc :=
  ((input.drop start).take (stop - start)).foldl PercentileDisc.add_datum pd

/-- The vector index the output path of `get_output` reads:
`0` when the fraction is `0`, else `ceil(f * n) as usize - 1`. -/
def percIdx (f : ℚ) (n : Nat) : Nat :=
  if f = 0 then 0 else ceilToUsize (f * n) - 1

/-- `PercentileDisc::get_output`: `None` when the fraction is `NULL` or no
value was accumulated; otherwise index the data vector (`data[0]` for
fraction `0`, else `data[ceil(f*n) as usize - 1]`). A `usize` underflow of
the `- 1` or an out-of-bounds index is a panic. -/
def PercentileDisc.get_output (pd : PercentileDisc) : RunResult Datum :=
  match pd.fractions with
  | some f =>
      if pd.data.isEmpty then .ok none
      else if f = 0 then
        match pd.data[0]? with
        | some v => .ok (some v)
        | none => .panic "index out of bounds"
      else if ceilToUsize (f * pd.data.length) = 0 then
        .panic "attempt to subtract with overflow"
      else
        match pd.data[ceilToUsize (f * pd.data.length) - 1]? with
        | some v => .ok (some v)
        | none => .panic "index out of bounds"
  | none => .ok none

/-! ## Concrete test fixtures (from the `tests` module of `table.rs`) -/

/-- The three-column all-`int32` schema of the tests. -/
def testSchemaInt : Schema := [.int32Kind, .int32Kind, .int32Kind]

/-- The three-column all-varchar schema of the tests. -/
def testSchemaStr : Schema := [.varcharKind, .varcharKind, .varcharKind]

/-- The pk column positions of the tests (`vec![0, 1]`). -/
def testPkColumns : List Nat := [0, 1]

/-- The pk orderings of the tests (`[Ascending, Descending]`). -/
def testOrderings : List OrderType := [.Ascending, .Descending]

/-- The keyspace prefix of `Keyspace::executor_root(_, 0x42)`. -/
def testPfx : Bytes := [101, 66]

/-- pk `(1, 11)`. -/
def pk1i : Row := [some (.int32 1), some (.int32 11)]

/-- row `[1, 11, 111]`. -/
def row1i : Row := [some (.int32 1), some (.int32 11), some (.int32 111)]

/-- pk `(2, 22)`. -/
def pk2i : Row := [some (.int32 2), some (.int32 22)]

/-- row `[2, 22, 222]`. -/
def row2i : Row := [some (.int32 2), some (.int32 22), some (.int32 222)]

/-- pk `("1", "11")` (byte 49 is the character `1`). -/
def pk1s : Row := [some (.utf8 [49]), some (.utf8 [49, 49])]

/-- row `["1", "11", "111"]`. -/
def row1s : Row :=
  [some (.utf8 [49]), some (.utf8 [49, 49]), some (.utf8 [49, 49, 49])]

/-- pk `("2", "22")` (byte 50 is the character `2`). -/
def pk2s : Row := [some (.utf8 [50]), some (.utf8 [50, 50])]

/-- row `["2", "22", "222"]`. -/
def row2s : Row :=
  [some (.utf8 [50]), some (.utf8 [50, 50]), some (.utf8 [50, 50, 50])]

/-- The store after the `test_mview_table_iter` write sequence on the
integer schema: put `(1,11)`, put `(2,22)`, delete `(2,22)`, flush. -/
def scenarioStoreInt : Store :=
  (((((ManagedMViewState.new testPfx testSchemaInt testPkColumns
      testOrderings).put pk1i row1i).put pk2i row2i).delete pk2i).flush
      [] 0).1

/-- The same scenario on the all-varchar schema. -/
def scenarioStoreStr : Store :=
  (((((ManagedMViewState.new testPfx testSchemaStr testPkColumns
      testOrderings).put pk1s row1s).put pk2s row2s).delete pk2s).flush
      [] 0).1

/-- The integer-schema table of the tests. -/
def tableInt : MViewTable :=
  ⟨testPfx, testSchemaInt, testPkColumns, testOrderings⟩

/-- The varchar-schema table of the tests. -/
def tableStr : MViewTable :=
  ⟨testPfx, testSchemaStr, testPkColumns, testOrderings⟩

/-- A bad percentile state: fraction `2` (outside `[0, 1]`) with one
accumulated value. -/
def percBad : PercentileDisc :=
  ⟨some 2, .int32Kind, [.int32 0]⟩

/-- A well-formed percentile state: fraction `1/2` with one accumulated
value. -/
def percHalf : PercentileDisc :=
  ⟨some (1 / 2), .int32Kind, [.int32 5]⟩

/-! # Theorems -/

/-! ## Codec round-trip lemmas -/

/-- `decBytes` undoes `encBytes`, leaving the unconsumed rest intact. -/
theorem decBytes_encBytes (s : List Nat) (rest : Bytes) :
    decBytes (encBytes s ++ rest) = some (s, rest) := by
  induction s with
  | nil => simp [encBytes, decBytes]
  | cons b bs ih =>
      have h : encBytes (b :: bs) ++ rest = 1 :: b :: (encBytes bs ++ rest) := by
        simp [encBytes]
      rw [h]
      simp [decBytes, ih]

/-- Deserialization undoes serialization at the front of any buffer, for
any datum representable at the declared type. -/
theorem deserializeDatum_serializeDatum (t : DataTypeKind) (d : Datum)
    (rest : Bytes) (h : wellTyped t d) :
    deserializeDatum t (serializeDatum d ++ rest) = some (d, rest) := by
  match t, d with
  | t, none => cases t <;> simp [serializeDatum, deserializeDatum]
  | .int32Kind, some (.int32 v) =>
      obtain ⟨h1, h2⟩ := h
      simp only [serializeDatum, be4, deserializeDatum, decode4,
        List.cons_append, List.nil_append, Option.some.injEq, Prod.mk.injEq,
        ScalarValue.int32.injEq, and_true]
      omega
  | .varcharKind, some (.utf8 s) =>
      simp [serializeDatum, deserializeDatum, decBytes_encBytes]
  | .int32Kind, some (.utf8 s) => exact absurd h (by simp [wellTyped])
  | .varcharKind, some (.int32 v) => exact absurd h (by simp [wellTyped])

/-! ## Store lemmas -/

/-- Reading back a just-deleted key returns nothing. -/
theorem storeGet_storeDelete_self (st : Store) (k : Bytes) :
    storeGet (storeDelete st k) k = none := by
  induction st with
  | nil => simp [storeDelete, storeGet]
  | cons e rest ih =>
      by_cases h : e.1 = k <;> simp [storeDelete, storeGet, h, ih]

/-- Deleting one key leaves point reads of other keys unchanged. -/
theorem storeGet_storeDelete_ne (st : Store) (k k2 : Bytes) (h : k2 ≠ k) :
    storeGet (storeDelete st k) k2 = storeGet st k2 := by
  induction st with
  | nil => simp [storeDelete]
  | cons e rest ih =>
      by_cases he : e.1 = k
      · simp [storeDelete, storeGet, he, h, Ne.symm h, ih]
      · by_cases he2 : e.1 = k2 <;>
          simp [storeDelete, storeGet, he, he2, h, Ne.symm h, ih]

/-- Reading back the key just written returns the written value. -/
theorem storeGet_storePut_self (st : Store) (k v : Bytes) :
    storeGet (storePut st k v) k = some v := by
  unfold storePut
  induction st with
  | nil => simp [storeDelete, storeGet]
  | cons e rest ih =>
      by_cases h : e.1 = k <;> simp [storeDelete, storeGet, h, ih]

/-- Writing one key leaves point reads of other keys unchanged. -/
theorem storeGet_storePut_ne (st : Store) (k v k2 : Bytes) (h : k2 ≠ k) :
    storeGet (storePut st k v) k2 = storeGet st k2 := by
  unfold storePut
  induction st with
  | nil => simp [storeDelete, storeGet, Ne.symm h]
  | cons e rest ih =>
      by_cases he : e.1 = k
      · simp [storeDelete, storeGet, he, h, Ne.symm h, ih]
      · by_cases he2 : e.1 = k2 <;>
          simp [storeDelete, storeGet, he, he2, h, Ne.symm h, ih]

/-- A point read after an atomic batch sees the batch's net effect on the
key, falling back to the pre-batch store when no op touched it. -/
theorem storeGet_applyBatch (st : Store) (ops : List WriteOp) (k : Bytes) :
    storeGet (applyBatch st ops) k =
      match batchEffect ops k with
      | some (some v) => some v
      | some none => none
      | none => storeGet st k := by
  induction ops generalizing st with
  | nil => simp [applyBatch, batchEffect]
  | cons op rest ih =>
      have happ : applyBatch st (op :: rest) = applyBatch (applyOp st op) rest := by
        simp [applyBatch]
      rw [happ, ih]
      cases hbe : batchEffect rest k with
      | some r => cases r <;> simp [batchEffect, hbe]
      | none =>
          cases op with
          | put k2 v =>
              by_cases hk : k2 = k
              · subst hk
                simp [batchEffect, hbe, applyOp, storeGet_storePut_self]
              · simp [batchEffect, hbe, applyOp, hk,
                  storeGet_storePut_ne st k2 v k (fun hh => hk hh.symm)]
          | del k2 =>
              by_cases hk : k2 = k
              · subst hk
                simp [batchEffect, hbe, applyOp, storeGet_storeDelete_self]
              · simp [batchEffect, hbe, applyOp, hk,
                  storeGet_storeDelete_ne st k2 k (fun hh => hk hh.symm)]

/-- A batch of puts whose keys all differ from `k` has no effect on `k`. -/
theorem batchEffect_map_put_none (key v : Nat → Bytes) (l : List Nat)
    (k : Bytes) (h : ∀ j ∈ l, key j ≠ k) :
    batchEffect (l.map (fun j => .put (key j) (v j))) k = none := by
  induction l with
  | nil => simp [batchEffect]
  | cons j rest ih =>
      have hj : key j ≠ k := h j (by simp)
      have hrest : ∀ j2 ∈ rest, key j2 ≠ k := fun j2 hm => h j2 (by simp [hm])
      simp [batchEffect, ih hrest, hj]

/-- The net effect of a batch of puts with pairwise-distinct keys on the
key of index `i` is the value written for `i`. -/
theorem batchEffect_map_put (key v : Nat → Bytes) (l : List Nat) (i : Nat)
    (hi : i ∈ l) (hinj : ∀ j ∈ l, key j = key i → j = i) :
    batchEffect (l.map (fun j => .put (key j) (v j))) (key i)
      = some (some (v i)) := by
  induction l with
  | nil => simp at hi
  | cons j rest ih =>
      by_cases hmem : i ∈ rest
      · have hrest : ∀ j2 ∈ rest, key j2 = key i → j2 = i :=
          fun j2 hm => hinj j2 (by simp [hm])
        simp [batchEffect, ih hmem hrest]
      · have hji : j = i := by
          rcases List.mem_cons.mp hi with h1 | h1
          · exact h1.symm
          · exact absurd h1 hmem
        subst hji
        have hnone : batchEffect (rest.map (fun j2 => .put (key j2) (v j2)))
            (key j) = none := by
          refine batchEffect_map_put_none key v rest (key j) ?_
          intro j2 hm hkeq
          exact hmem ((hinj j2 (by simp [hm]) hkeq) ▸ hm)
        simp [batchEffect, hnone]

/-! ## Buffer lemmas -/

/-- Replacing a key twice in the buffer collapses to the second call. -/
theorem upsert_upsert (m : List (Row × Option Row)) (pk : Row)
    (v1 v2 : Option Row) :
    upsert (upsert m pk v1) pk v2 = upsert m pk v2 := by
  induction m with
  | nil => simp [upsert]
  | cons e rest ih =>
      by_cases h : e.1 = pk <;> simp [upsert, h, ih]

/-! ## Claim theorems -/

/-- C8: for every supported scalar type `t` and every value `v`
representable at `t` (including null), decoding the cell encoding of `v`
round-trips exactly: `decode_cell(encode_cell(v, t), t) == v`. -/
theorem C8_cell_codec_roundtrip (t : DataTypeKind) (d : Datum)
    (h : wellTyped t d) :
    deserializeDatum t (serializeDatum d) = some (d, []) := by
  have h2 := deserializeDatum_serializeDatum t d [] h
  simpa using h2

/-- Witness for C8 at concrete inputs of each supported type, including a
negative integer and a null. -/
theorem C8_cell_codec_roundtrip_witness :
    (wellTyped .int32Kind (some (.int32 (-5))) ∧
      deserializeDatum .int32Kind (serializeDatum (some (.int32 (-5))))
        = some (some (.int32 (-5)), [])) ∧
    (wellTyped .varcharKind (some (.utf8 [49, 50])) ∧
      deserializeDatum .varcharKind (serializeDatum (some (.utf8 [49, 50])))
        = some (some (.utf8 [49, 50]), [])) ∧
    (wellTyped .varcharKind none ∧
      deserializeDatum .varcharKind (serializeDatum none)
        = some (none, [])) :=
  ⟨⟨by decide, C8_cell_codec_roundtrip _ _ (by decide)⟩,
   ⟨by decide, C8_cell_codec_roundtrip _ _ (by decide)⟩,
   ⟨by decide, C8_cell_codec_roundtrip _ _ (by decide)⟩⟩

/-- C2: in the `test_mview_table_iter` scenario — rows for pks
`(1,11) -> [1,11,111]` and `(2,22) -> [2,22,222]` put, pk `(2,22)`
deleted, one flush — a subsequent `iterate()` yields exactly one row
`[1,11,111]` (consuming all scan entries) and then end-of-sequence, for
both the all-integer and the all-string three-column schema. -/
theorem C2_iter_scenario :
    (iterNext testSchemaInt testPfx (tableInt.iterEntries scenarioStoreInt)
        = .ok (some row1i, []))
  ∧ (iterNext testSchemaInt testPfx [] = .ok (none, []))
  ∧ (iterNext testSchemaStr testPfx (tableStr.iterEntries scenarioStoreStr)
        = .ok (some row1s, []))
  ∧ (iterNext testSchemaStr testPfx [] = .ok (none, [])) := by
  refine ⟨?_, ?_, ?_, ?_⟩ <;> decide

/-- C3: a pk group yielding fewer than `schema.len()` cells — because the
underlying iterator ends mid-group, or because the key space advances to a
different encoded pk — makes `next()` return the "incomplete item"
corruption error; while exhaustion with zero cells collected yields
end-of-sequence success. -/
theorem C3_incomplete_item_detection (schema : Schema)
    (pfx pk_buf row_bytes : Bytes) (restored : Nat) (key value : Bytes)
    (rest : List (Bytes × Bytes)) :
    (restored ≠ 0 →
      iterNextLoop schema pfx [] pk_buf restored row_bytes
        = .err (.internalError "incomplete item"))
  ∧ (iterNextLoop schema pfx [] pk_buf 0 row_bytes = .ok (none, []))
  ∧ (¬ key.length < pfx.length + 4 →
      restored ≠ 0 →
      (key.drop pfx.length).take (key.length - 4 - pfx.length) ≠ pk_buf →
      iterNextLoop schema pfx ((key, value) :: rest) pk_buf restored
        row_bytes = .err (.internalError "incomplete item")) := by
  refine ⟨fun h => by simp [iterNextLoop, h], by simp [iterNextLoop],
    fun hk hr hne => ?_⟩
  simp [iterNextLoop, hk, hr, Ne.symm hne]

/-- Witness for C3: a partial group at exhaustion errs; zero cells at
exhaustion ends cleanly; a pk change mid-group errs. -/
theorem C3_incomplete_item_detection_witness :
    (iterNextLoop testSchemaInt [66] [] [9] 1 []
        = .err (.internalError "incomplete item"))
  ∧ (iterNextLoop testSchemaInt [66] [] [9] 0 [] = .ok (none, []))
  ∧ (iterNextLoop testSchemaInt [66] [([66, 8, 0, 0, 0, 0], [0])] [9] 1 []
        = .err (.internalError "incomplete item")) :=
  ⟨(C3_incomplete_item_detection testSchemaInt [66] [9] [] 1
      [66, 8, 0, 0, 0, 0] [0] []).1 (by decide),
   (C3_incomplete_item_detection testSchemaInt [66] [9] [] 0
      [66, 8, 0, 0, 0, 0] [0] []).2.1,
   (C3_incomplete_item_detection testSchemaInt [66] [9] [] 1
      [66, 8, 0, 0, 0, 0] [0] []).2.2 (by decide) (by decide) (by decide)⟩

/-- C4: any scanned entry whose key is shorter than `prefix.len() + 4`
makes `next()` return the key-corruption error immediately (the literal
message in the code is "corrupted key"), regardless of the loop state or
the remaining entries — fatal, not skipped. -/
theorem C4_malformed_key_error (schema : Schema)
    (pfx pk_buf row_bytes : Bytes) (restored : Nat) (key value : Bytes)
    (rest : List (Bytes × Bytes)) (h : key.length < pfx.length + 4) :
    iterNextLoop schema pfx ((key, value) :: rest) pk_buf restored row_bytes
      = .err (.internalError "corrupted key") := by
  simp [iterNextLoop, h]

/-- Witness for C4: a 1-byte key under a 1-byte prefix errs. -/
theorem C4_malformed_key_error_witness :
    (([66] : Bytes).length < ([66] : Bytes).length + 4)
  ∧ iterNextLoop testSchemaInt [66] [([66], [7])] [] 0 []
      = .err (.internalError "corrupted key") :=
  ⟨by decide,
   C4_malformed_key_error testSchemaInt [66] [] [] 0 [66] [7] [] (by decide)⟩

/-- C7: within one buffering window, repeated `put`/`delete` on the same
pk before a flush collapses to the most recent call; in particular
`put(pk, r1); put(pk, r2)` equals just `put(pk, r2)`. -/
theorem C7_last_write_wins (s : ManagedMViewState) (pk r1 r2 : Row) :
    ((s.put pk r1).put pk r2 = s.put pk r2)
  ∧ ((s.delete pk).put pk r2 = s.put pk r2)
  ∧ ((s.put pk r1).delete pk = s.delete pk)
  ∧ ((s.delete pk).delete pk = s.delete pk) := by
  refine ⟨?_, ?_, ?_, ?_⟩ <;>
    simp [ManagedMViewState.put, ManagedMViewState.delete, upsert_upsert]

/-! ## Key injectivity and C1 -/

/-- `be4` is injective on 32-bit values. -/
theorem be4_inj (i j : Nat) (hi : i < 2 ^ 32) (hj : j < 2 ^ 32)
    (h : be4 i = be4 j) : i = j := by
  simp only [be4, List.cons.injEq, and_true] at h
  omega

/-- For one pk, distinct column indices give distinct cell keys. -/
theorem cellKey_inj_idx (pfx : Bytes) (ords : List OrderType) (pk : Row)
    (i j : Nat) (hi : i < 2 ^ 32) (hj : j < 2 ^ 32)
    (h : cellKey pfx ords pk i = cellKey pfx ords pk j) : i = j := by
  unfold cellKey at h
  exact be4_inj i j hi hj (List.append_cancel_left h)

/-- Pointwise typing facts from a well-typed row. -/
theorem wellTypedRow_getD (schema : Schema) (row : Row)
    (h : wellTypedRow schema row) (i : Nat) (hi : i < schema.length) :
    wellTyped (schema.getD i .int32Kind) (row.getD i none) := by
  induction schema generalizing row i with
  | nil => simp at hi
  | cons t ts ih =>
      cases row with
      | nil => simp [wellTypedRow] at h
      | cons d ds =>
          obtain ⟨h1, h2⟩ := h
          cases i with
          | zero => simpa using h1
          | succ n => simpa using ih ds h2 n (by simpa using hi)

/-- Round trip with nothing left over. -/
theorem deserializeDatum_serializeDatum_nil (t : DataTypeKind) (d : Datum)
    (h : wellTyped t d) :
    deserializeDatum t (serializeDatum d) = some (d, []) := by
  have h2 := deserializeDatum_serializeDatum t d [] h
  simpa using h2

/-- C1: after `put(pk, row)` on a fresh managed state followed by a
`flush(epoch)` against any starting store, `get(pk, i)` on a table over
the same keyspace returns `Ok(Some(row[i]))` for every column index
`i < schema.len()`, for any single well-typed row. -/
theorem C1_put_flush_get (pfx : Bytes) (schema : Schema)
    (pk_columns : List Nat) (ords : List OrderType) (pk row : Row)
    (st : Store) (epoch i : Nat)
    (hwt : wellTypedRow schema row)
    (hlen : schema.length ≤ 2 ^ 32)
    (hi : i < schema.length) :
    (MViewTable.mk pfx schema pk_columns ords).get
      ((((ManagedMViewState.new pfx schema pk_columns ords).put pk
          row).flush st epoch).1) pk i
      = .ok (some (row.getD i none)) := by
  have hmem : i ∈ List.range schema.length := List.mem_range.mpr hi
  have hinj : ∀ j ∈ List.range schema.length,
      (fun n => cellKey pfx ords pk n) j = (fun n => cellKey pfx ords pk n) i
        → j = i := by
    intro j hjm hk
    exact cellKey_inj_idx pfx ords pk j i
      (lt_of_lt_of_le (List.mem_range.mp hjm) hlen)
      (lt_of_lt_of_le hi hlen) hk
  have hbe := batchEffect_map_put (fun n => cellKey pfx ords pk n)
    (fun n => serializeDatum (row.getD n none))
    (List.range schema.length) i hmem hinj
  simp only [] at hbe
  have hops : ((((ManagedMViewState.new pfx schema pk_columns ords).put pk
      row).flush st epoch).1)
      = applyBatch st ((List.range schema.length).map
          (fun n => WriteOp.put (cellKey pfx ords pk n)
            (serializeDatum (row.getD n none)))) := by
    simp [ManagedMViewState.flush, ManagedMViewState.flushOps,
      ManagedMViewState.new, ManagedMViewState.put, upsert]
  have hget : storeGet (applyBatch st ((List.range schema.length).map
      (fun n => WriteOp.put (cellKey pfx ords pk n)
        (serializeDatum (row.getD n none)))))
      (cellKey pfx ords pk i) = some (serializeDatum (row.getD i none)) := by
    rw [storeGet_applyBatch, hbe]
  have hdec := deserializeDatum_serializeDatum_nil
    (schema.getD i .int32Kind) (row.getD i none)
    (wellTypedRow_getD schema row hwt i hi)
  simp [hi] at hget hdec
  simp [MViewTable.get, hi, hops, hget, hdec]

/-- Witness for C1: the integer-schema test row at column 2. -/
theorem C1_put_flush_get_witness :
    wellTypedRow testSchemaInt row1i ∧ testSchemaInt.length ≤ 2 ^ 32
  ∧ 2 < testSchemaInt.length
  ∧ (MViewTable.mk testPfx testSchemaInt testPkColumns testOrderings).get
      ((((ManagedMViewState.new testPfx testSchemaInt testPkColumns
          testOrderings).put pk1i row1i).flush [] 0).1) pk1i 2
      = .ok (some (some (.int32 111))) :=
  ⟨by decide, by decide, by decide,
   C1_put_flush_get testPfx testSchemaInt testPkColumns testOrderings pk1i
     row1i [] 0 2 (by decide) (by decide) (by decide)⟩

/-! ## C5 and C6: `get` error behavior -/

/-- C5 counterexample: with a three-column schema and `cell_idx = 3`, the
call is stopped by the failed `debug_assert!` — a panic, not a returned
invalid-argument error — so `get` does not reject an out-of-range column
index "as an invalid-argument error". -/
theorem C5_counterexample_panic_not_error :
    RunResult.isErr (tableInt.get [] pk1i 3) = false
  ∧ tableInt.get [] pk1i 3
      = .panic "assertion failed: cell_idx < self.schema.len()" := by
  refine ⟨?_, ?_⟩ <;> decide

/-- C5 (amended): for every call `get(pk, cell_idx)` with
`cell_idx >= schema.len()`, the call is rejected by the `debug_assert!`
(a panic) before any I/O — the result does not depend on the store — but
not as a returned invalid-argument error. -/
theorem C5_out_of_range_asserts (t : MViewTable) (st : Store) (pk : Row)
    (cell_idx : Nat) (h : t.schema.length ≤ cell_idx) :
    t.get st pk cell_idx
      = .panic "assertion failed: cell_idx < self.schema.len()" := by
  have hn : ¬ cell_idx < t.schema.length := by omega
  simp [MViewTable.get, hn]

/-- Witness for C5 (amended) at `cell_idx = 3` on the three-column table,
over a nonempty store. -/
theorem C5_out_of_range_asserts_witness :
    tableInt.schema.length ≤ 3
  ∧ tableInt.get [([0], [0])] pk1i 3
      = .panic "assertion failed: cell_idx < self.schema.len()" :=
  ⟨by decide, C5_out_of_range_asserts tableInt [([0], [0])] pk1i 3 (by decide)⟩

/-- C6: for every pk and valid column index, an absent cell key makes
`get` return `Ok(None)` — never an error — and a present cell key whose
bytes decode at the column's declared type makes `get` return `Ok(Some)`
of the decoded datum. -/
theorem C6_get_absent_and_present (t : MViewTable) (st : Store) (pk : Row)
    (i : Nat) (hi : i < t.schema.length) :
    (storeGet st (cellKey t.pfx t.orderings pk i) = none →
      t.get st pk i = .ok none)
  ∧ (∀ buf d rest2,
      storeGet st (cellKey t.pfx t.orderings pk i) = some buf →
      deserializeDatum (t.schema.getD i .int32Kind) buf = some (d, rest2) →
      t.get st pk i = .ok (some d)) := by
  constructor
  · intro h
    simp [MViewTable.get, hi, h]
  · intro buf d rest2 h1 h2
    simp [hi] at h2
    simp [MViewTable.get, hi, h1, h2]

/-- Witness for C6: an empty store yields `Ok(None)`; a store holding one
encoded cell yields `Ok(Some 7)`. -/
theorem C6_get_absent_and_present_witness :
    (tableInt.get [] pk1i 0 = .ok none)
  ∧ (tableInt.get
      [(cellKey testPfx testOrderings pk1i 0,
        serializeDatum (some (.int32 7)))] pk1i 0
      = .ok (some (some (.int32 7)))) :=
  ⟨(C6_get_absent_and_present tableInt [] pk1i 0 (by decide)).1 (by decide),
   (C6_get_absent_and_present tableInt
      [(cellKey testPfx testOrderings pk1i 0,
        serializeDatum (some (.int32 7)))] pk1i 0 (by decide)).2
      (serializeDatum (some (.int32 7))) (some (.int32 7)) []
      (by decide) (by decide)⟩

/-! ## C9 and C10: percentile aggregator -/

/-- Folding `add_datum` over a chunk appends exactly the non-null datums. -/
theorem foldl_add_datum_data (pd : PercentileDisc) (input : List Datum) :
    (input.foldl PercentileDisc.add_datum pd).data
      = pd.data ++ input.filterMap id := by
  induction input generalizing pd with
  | nil => simp
  | cons d ds ih =>
      cases d with
      | none => simp [PercentileDisc.add_datum, ih]
      | some v => simp [PercentileDisc.add_datum, ih]

/-- Bounds on the output index for a fraction in `[0, 1]` and a nonempty
data vector. -/
theorem percIdx_lt (f : ℚ) (n : Nat) (h0 : 0 ≤ f) (h1 : f ≤ 1)
    (hn : 0 < n) :
    percIdx f n < n ∧
      (f ≠ 0 → 1 ≤ ceilToUsize (f * n) ∧ ceilToUsize (f * n) ≤ n) := by
  by_cases hf0 : f = 0
  · subst hf0
    simp [percIdx, hn]
  · have hpos : 0 < f := lt_of_le_of_ne h0 (Ne.symm hf0)
    have hnq : (0 : ℚ) < (n : ℚ) := by exact_mod_cast hn
    have hq : 0 < f * (n : ℚ) := mul_pos hpos hnq
    have hceil1 : 0 < ⌈f * (n : ℚ)⌉ := Int.ceil_pos.mpr hq
    have hle : f * (n : ℚ) ≤ (n : ℚ) := by
      calc f * (n : ℚ) ≤ 1 * (n : ℚ) :=
              mul_le_mul_of_nonneg_right h1 (le_of_lt hnq)
        _ = (n : ℚ) := one_mul _
    have hceil2 : ⌈f * (n : ℚ)⌉ ≤ (n : ℤ) := Int.ceil_le.mpr (by push_cast; exact hle)
    have hb1 : 1 ≤ ceilToUsize (f * n) := by unfold ceilToUsize; omega
    have hb2 : ceilToUsize (f * n) ≤ n := by unfold ceilToUsize; omega
    refine ⟨?_, fun _ => ⟨hb1, hb2⟩⟩
    simp only [percIdx, hf0, if_false]
    omega

/-- With a present in-range fraction and nonempty data, `get_output`
returns `Ok(Some v)` for some accumulated `v`. -/
theorem get_output_yields_mem (pd : PercentileDisc) (f : ℚ)
    (hf : pd.fractions = some f) (h0 : 0 ≤ f) (h1 : f ≤ 1)
    (hne : pd.data ≠ []) :
    ∃ v ∈ pd.data, pd.get_output = .ok (some v) := by
  have hn : 0 < pd.data.length := List.length_pos.mpr hne
  have hemp : pd.data.isEmpty = false := by
    simpa [List.isEmpty_iff] using hne
  by_cases hf0 : f = 0
  · subst hf0
    refine ⟨pd.data[0], List.getElem_mem hn, ?_⟩
    simp [PercentileDisc.get_output, hf, hemp, List.getElem?_eq_getElem hn]
  · obtain ⟨hge1, hlen⟩ := (percIdx_lt f pd.data.length h0 h1 hn).2 hf0
    have hidx : ceilToUsize (f * pd.data.length) - 1 < pd.data.length := by
      omega
    have hc0 : ¬ ceilToUsize (f * pd.data.length) = 0 := by omega
    refine ⟨pd.data[ceilToUsize (f * pd.data.length) - 1],
      List.getElem_mem hidx, ?_⟩
    simp [PercentileDisc.get_output, hf, hemp, hf0, hc0,
      List.getElem?_eq_getElem hidx]

/-- C9 (amended — the fraction, when present, must lie in `[0, 1]`): the
aggregator accumulates only non-null input values (`update` and
`update_range` append exactly the non-null datums), and `get_output`
returns `None` exactly when the fraction argument is null or no non-null
value has been accumulated; otherwise it returns `Some` of an accumulated
value. -/
theorem C9_accumulate_nonnull_and_output (pd : PercentileDisc)
    (input : List Datum) (start stop : Nat)
    (hf : ∀ f, pd.fractions = some f → 0 ≤ f ∧ f ≤ 1) :
    ((pd.update input).data = pd.data ++ input.filterMap id)
  ∧ ((pd.update_range input start stop).data
      = pd.data ++ ((input.drop start).take (stop - start)).filterMap id)
  ∧ (pd.get_output = .ok none ↔ pd.fractions = none ∨ pd.data = [])
  ∧ (pd.fractions ≠ none → pd.data ≠ [] →
      ∃ v ∈ pd.data, pd.get_output = .ok (some v)) := by
  refine ⟨foldl_add_datum_data pd input, foldl_add_datum_data pd _, ?_, ?_⟩
  · constructor
    · intro h
      by_contra hcon
      push_neg at hcon
      obtain ⟨hfn, hdn⟩ := hcon
      cases hfo : pd.fractions with
      | none => exact hfn hfo
      | some f =>
          obtain ⟨hb0, hb1⟩ := hf f hfo
          obtain ⟨v, hv, hout⟩ := get_output_yields_mem pd f hfo hb0 hb1 hdn
          rw [h] at hout
          simp at hout
    · rintro (hfo | hde)
      · simp [PercentileDisc.get_output, hfo]
      · cases hfo2 : pd.fractions <;>
          simp [PercentileDisc.get_output, hfo2, hde]
  · intro hfn hdn
    cases hfo : pd.fractions with
    | none => exact absurd hfo hfn
    | some f =>
        obtain ⟨hb0, hb1⟩ := hf f hfo
        exact get_output_yields_mem pd f hfo hb0 hb1 hdn

/-- C9 counterexample: with fraction `2` (not null) and one accumulated
value (nonempty data), `get_output` panics on an out-of-bounds index
instead of returning `Some` of an accumulated value, so the claim fails
without a `0 ≤ f ≤ 1` restriction. -/
theorem C9_counterexample_fraction_two_panics :
    percBad.fractions ≠ none ∧ percBad.data ≠ []
  ∧ percBad.get_output = .panic "index out of bounds" := by
  refine ⟨by simp [percBad], by simp [percBad], ?_⟩
  have hc : ceilToUsize 2 = 2 := by
    unfold ceilToUsize
    norm_num
    rfl
  simp [percBad, PercentileDisc.get_output, hc]

/-- Witness for C9 at a concrete aggregator state and chunk. -/
theorem C9_accumulate_nonnull_and_output_witness :
    ((percHalf.update [some (.int32 3), none]).data
      = percHalf.data ++ [some (ScalarValue.int32 3), none].filterMap id)
  ∧ ((percHalf.update_range [some (.int32 3), none] 0 1).data
      = percHalf.data
        ++ (([some (ScalarValue.int32 3), none].drop 0).take (1 - 0)).filterMap id)
  ∧ (percHalf.get_output = .ok none
      ↔ percHalf.fractions = none ∨ percHalf.data = [])
  ∧ (∃ v ∈ percHalf.data, percHalf.get_output = .ok (some v)) := by
  have H := C9_accumulate_nonnull_and_output percHalf
    [some (.int32 3), none] 0 1
    (fun f h => by
      injection h with h2
      subst h2
      exact ⟨by norm_num, by norm_num⟩)
  exact ⟨H.1, H.2.1, H.2.2.1,
    H.2.2.2 (by simp [percHalf]) (by simp [percHalf])⟩

/-- C10: for every fraction `0 ≤ f ≤ 1` and nonempty data of length `n`,
the index used by `get_output` (`0` when `f = 0`, else
`ceil(f*n) as usize - 1`) is within bounds, so `get_output` does not panic
and returns `Some` of an accumulated value; and the would-be index
computation of the non-zero branch at `f = 0` yields `ceil(0*n) = 0`,
whose `- 1` would underflow — which the `f == 0` branch avoids. -/
theorem C10_output_index_in_bounds (pd : PercentileDisc) (f : ℚ)
    (hf : pd.fractions = some f) (h0 : 0 ≤ f) (h1 : f ≤ 1)
    (hne : pd.data ≠ []) :
    (percIdx f pd.data.length < pd.data.length)
  ∧ (∃ v ∈ pd.data, pd.get_output = .ok (some v))
  ∧ (ceilToUsize (0 * (pd.data.length : ℚ)) = 0) := by
  have hn : 0 < pd.data.length := List.length_pos.mpr hne
  refine ⟨(percIdx_lt f pd.data.length h0 h1 hn).1,
    get_output_yields_mem pd f hf h0 h1 hne, ?_⟩
  simp [ceilToUsize]

/-- Witness for C10 at fraction `1/2` with one accumulated value. -/
theorem C10_output_index_in_bounds_witness :
    ((0 : ℚ) ≤ 1 / 2 ∧ (1 / 2 : ℚ) ≤ 1)
  ∧ ((percIdx (1 / 2) percHalf.data.length < percHalf.data.length)
      ∧ (∃ v ∈ percHalf.data, percHalf.get_output = .ok (some v))
      ∧ (ceilToUsize (0 * (percHalf.data.length : ℚ)) = 0)) :=
  ⟨⟨by norm_num, by norm_num⟩,
   C10_output_index_in_bounds percHalf (1 / 2) rfl (by norm_num)
     (by norm_num) (by simp [percHalf])⟩
